import Mathlib

/- Verification development for the floq control-optimization core.

   Embedded source files:
   - src/floq/helpers/matrix.py             (is_unitary, gram_schmidt, product, norm)
   - src/benchmark/museum_of_forks/p0/systems/parametric_system.py
                                            (ParametricSystemBase: u, du, _is_cached, _set_cached)
   - src/benchmark/museum_of_forks/p0/optimization/fidelity.py
                                            (FidelityBase, EnsembleFidelity, OperatorDistance)

   Machine reals are modelled by exact rationals; complex matrix entries by
   pairs of rationals; the external numpy sqrt is an explicit function
   parameter; the external Floquet solver, the Hamiltonian-builder hooks and
   the operator-distance collaborators are explicit function parameters
   returning Except (they may raise).  Python exceptions are Except errors. -/

/- ================= Section 1: complex rational pairs (matrix entries) ===== -/

/-- A complex number with rational real and imaginary part; models the complex
floating-point entries of numpy arrays exactly. -/
structure CQ where
  re : ℚ
  im : ℚ
deriving DecidableEq

/-- Componentwise addition. -/
def CQ.add (x y : CQ) : CQ := ⟨x.re + y.re, x.im + y.im⟩

/-- Componentwise subtraction. -/
def CQ.sub (x y : CQ) : CQ := ⟨x.re - y.re, x.im - y.im⟩

/-- Complex multiplication. -/
def CQ.mul (x y : CQ) : CQ := ⟨x.re * y.re - x.im * y.im, x.re * y.im + x.im * y.re⟩

/-- Complex conjugation (np.conj). -/
def CQ.conj (x : CQ) : CQ := ⟨x.re, -x.im⟩

/-- Squared modulus: encodes np.absolute exactly (|z| <= c iff absSq z <= c^2
for c >= 0). -/
def CQ.absSq (x : CQ) : ℚ := x.re ^ 2 + x.im ^ 2

instance : Zero CQ := ⟨⟨0, 0⟩⟩

instance : Add CQ := ⟨CQ.add⟩

instance : AddCommMonoid CQ where
  add_assoc a b c := by
    show CQ.add (CQ.add a b) c = CQ.add a (CQ.add b c)
    simp [CQ.add]; constructor <;> ring
  zero_add a := by show CQ.add ⟨0, 0⟩ a = a; simp [CQ.add]
  add_zero a := by show CQ.add a ⟨0, 0⟩ = a; simp [CQ.add]
  add_comm a b := by
    show CQ.add a b = CQ.add b a
    simp [CQ.add]; constructor <;> ring
  nsmul := nsmulRec

/-- The identity matrix np.eye(n) (real entries 0 / 1). -/
def eye (n : ℕ) : Fin n → Fin n → CQ := fun i j => if i = j then ⟨1, 0⟩ else 0

/-- The product umat.H * umat appearing in is_unitary: entry (i,j) of
adjoint(U).U. -/
def adjointMulSelf {n : ℕ} (u : Fin n → Fin n → CQ) : Fin n → Fin n → CQ :=
  fun i j => ∑ k, CQ.mul (CQ.conj (u k i)) (u k j)

/-- numpy's default relative tolerance for np.allclose (rtol = 1e-05); the
source passes only atol=tolerance, so this default stays in force. -/
def rtolDefault : ℚ := 1 / 100000

/-- matrix.py is_unitary: np.allclose(adjoint(U) U, eye(n), atol=tolerance)
with numpy's elementwise criterion  |a - b| <= atol + rtol * |b|  where b is
the identity and rtol keeps its numpy default.  The modulus comparison is
encoded squared, exactly equivalent for nonnegative thresholds. -/
def is_unitary {n : ℕ} (u : Fin n → Fin n → CQ) (tolerance : ℚ) : Bool :=
  decide (∀ i j, CQ.absSq (CQ.sub (adjointMulSelf u i j) (eye n i j)) ≤
    (tolerance + rtolDefault * (if i = j then (1 : ℚ) else 0)) ^ 2)

/- ================= Section 2: cached parametric system ==================== -/

/-- A controls argument as received by u/du: either a proper 1-d numeric
array, or some other python object (for which np.array_equal against a stored
numeric array is False and isinstance(controls, np.ndarray) fails). -/
inductive Ctrl where
  | arr (l : List ℚ)
  | other
deriving DecidableEq

/-- Errors a call can raise: attrErr models the AttributeError from reading
self._fixed_system before any successful solve; raised models an exception
propagating out of a Hamiltonian-builder hook or the external solver. -/
inductive PErr where
  | attrErr
  | raised
deriving DecidableEq

/-- The value held in self._fixed_system after a successful solve: propagator
u, derivative tensor du, and the solver-adapted mode-truncation count
(self._fixed_system.params.nz). -/
structure SolveResult (U DU : Type) where
  u : U
  du : DU
  nz : ℕ
deriving DecidableEq

/-- The external collaborators of ParametricSystemBase: the subclass hooks
_hf / _dhf and the FixedSystem solver, all of which may raise, plus the
angular frequency omega held by the instance. -/
structure SysParams (H D U DU : Type) where
  hf : Ctrl → Except Unit H
  dhf : Ctrl → Except Unit D
  solve : H → D → ℕ → ℚ → ℚ → Except Unit (SolveResult U DU)
  omega : ℚ

/-- Mutable state of a ParametricSystemBase instance: _last_controls,
_last_t, _fixed_system (absent before the first successful solve), nz. -/
structure PState (U DU : Type) where
  last_controls : Option Ctrl
  last_t : Option ℚ
  fixed : Option (SolveResult U DU)
  nz : ℕ
deriving DecidableEq

/-- State directly after __init__ (self._last_controls = None,
self._last_t = None, no _fixed_system yet) with initial mode count nz0. -/
def initState (U DU : Type) (nz0 : ℕ) : PState U DU :=
  ⟨none, none, none, nz0⟩

/-- np.array_equal(self._last_controls, controls) for a proper numeric query
array: True only when the stored key is itself a numeric array with exactly
equal contents (None or a non-array stored value never compares equal). -/
def arrayEqual (storeVal : Option Ctrl) (a : List ℚ) : Bool :=
  match storeVal with
  | some (Ctrl.arr l) => decide (l = a)
  | _ => false

/-- ParametricSystemBase._is_cached: non-array controls are never cached,
then exact duration equality, then exact array value equality. -/
def isCached {U DU : Type} (s : PState U DU) (controls : Ctrl) (t : ℚ) : Bool :=
  match controls with
  | Ctrl.other => false
  | Ctrl.arr a => if s.last_t ≠ some t then false else arrayEqual s.last_controls a

/-- The hf/dhf/FixedSystem sequence performed on a cache miss, run with mode
count nz: exactly the fallible tail of _set_cached. -/
def solveSeq {H D U DU : Type} (P : SysParams H D U DU) (nz : ℕ) (controls : Ctrl)
    (t : ℚ) : Except Unit (SolveResult U DU) := do
  let h ← P.hf controls
  let d ← P.dhf controls
  P.solve h d nz P.omega t

/-- ParametricSystemBase._set_cached: the key (_last_controls, _last_t) is
overwritten first; only then are the hooks and the solver invoked, and only
on success is _fixed_system replaced.  Returns the new state together with
the outcome of the solve. -/
def setCached {H D U DU : Type} (P : SysParams H D U DU) (s : PState U DU)
    (controls : Ctrl) (t : ℚ) : PState U DU × Except Unit (SolveResult U DU) :=
  let s1 : PState U DU := { s with last_controls := some controls, last_t := some t }
  match solveSeq P s.nz controls t with
  | Except.error e => (s1, Except.error e)
  | Except.ok r => ({ s1 with fixed := some r }, Except.ok r)

/-- ParametricSystemBase.u.  Returns the result (or error), the new state and
the number of Hamiltonian-builder invocations (0 on a hit, 1 on a miss).  On
a miss the mode count self.nz is updated from the solver result. -/
def uRun {H D U DU : Type} (P : SysParams H D U DU) (s : PState U DU)
    (controls : Ctrl) (t : ℚ) : Except PErr U × PState U DU × ℕ :=
  if isCached s controls t then
    match s.fixed with
    | none => (Except.error PErr.attrErr, s, 0)
    | some r => (Except.ok r.u, s, 0)
  else
    match setCached P s controls t with
    | (s1, Except.error _) => (Except.error PErr.raised, s1, 1)
    | (s1, Except.ok r) => (Except.ok r.u, { s1 with nz := r.nz }, 1)

/-- ParametricSystemBase.du, same caching discipline as u but returning the
derivative tensor. -/
def duRun {H D U DU : Type} (P : SysParams H D U DU) (s : PState U DU)
    (controls : Ctrl) (t : ℚ) : Except PErr DU × PState U DU × ℕ :=
  if isCached s controls t then
    match s.fixed with
    | none => (Except.error PErr.attrErr, s, 0)
    | some r => (Except.ok r.du, s, 0)
  else
    match setCached P s controls t with
    | (s1, Except.error _) => (Except.error PErr.raised, s1, 1)
    | (s1, Except.ok r) => (Except.ok r.du, { s1 with nz := r.nz }, 1)

/-- The cache-key match condition of the specification: the query is a proper
numeric array, exactly value-equal to the stored control array, and the
duration is exactly the stored duration. -/
def cacheMatch {U DU : Type} (s : PState U DU) (controls : Ctrl) (t : ℚ) : Prop :=
  ∃ a, controls = Ctrl.arr a ∧ s.last_controls = some (Ctrl.arr a) ∧ s.last_t = some t

/- ================= Section 3: fidelity layer ============================= -/

/-- The value returned by penalty / d_penalty: the defaults return the float
scalar 0.0 (broadcast over the gradient), an override may return a vector. -/
inductive PenVal where
  | scalar (q : ℚ)
  | vec (l : List ℚ)
deriving DecidableEq

/-- numpy broadcast addition of a gradient vector and a penalty value. -/
def gradAdd (v : List ℚ) (p : PenVal) : List ℚ :=
  match p with
  | PenVal.scalar q => v.map (fun x => x + q)
  | PenVal.vec w => List.zipWith (fun x y => x + y) v w

/-- A concrete metric on the FidelityBase contract: the subclass hooks _f and
_df together with the (optionally overridden) penalty and d_penalty. -/
structure FidelityBase (X : Type) where
  core_f : X → ℚ
  core_df : X → List ℚ
  penalty : X → ℚ
  d_penalty : X → PenVal

/-- The default penalty (not overridden): returns 0.0. -/
def defaultPenalty (X : Type) : X → ℚ := fun _ => 0

/-- The default d_penalty (not overridden): returns the scalar 0.0. -/
def defaultDPenalty (X : Type) : X → PenVal := fun _ => PenVal.scalar 0

/-- FidelityBase.f: self._f(x) + self.penalty(x). -/
def FidelityBase.f {X : Type} (m : FidelityBase X) (x : X) : ℚ :=
  m.core_f x + m.penalty x

/-- FidelityBase.df: self._df(x) + self.d_penalty(x) (broadcast add). -/
def FidelityBase.df {X : Type} (m : FidelityBase X) (x : X) : List ℚ :=
  gradAdd (m.core_df x) (m.d_penalty x)

/-- np.mean of a list of scalars. -/
def npMean (l : List ℚ) : ℚ := l.sum / l.length

/-- Elementwise sum of a (nonempty, equal-length) list of vectors: the
np.sum(axis=0) accumulation inside np.mean(axis=0). -/
def sumAxis0 : List (List ℚ) → List ℚ
  | [] => []
  | [v] => v
  | v :: vs => List.zipWith (fun x y => x + y) v (sumAxis0 vs)

/-- np.mean(vs, axis=0): elementwise arithmetic mean across the outer axis. -/
def npMeanAxis0 (vs : List (List ℚ)) : List ℚ :=
  (sumAxis0 vs).map (fun x => x / vs.length)

/-- EnsembleFidelity._f over the per-member metric instances: the mean of the
members' full f values. -/
def ensembleCoreF {X : Type} (fids : List (FidelityBase X)) (x : X) : ℚ :=
  npMean (fids.map (fun m => FidelityBase.f m x))

/-- EnsembleFidelity._df: the elementwise mean of the members' df vectors. -/
def ensembleCoreDf {X : Type} (fids : List (FidelityBase X)) (x : X) : List ℚ :=
  npMeanAxis0 (fids.map (fun m => FidelityBase.df m x))

/-- The public operations of a fidelity instance, as issued by the optimizer. -/
inductive FidOp (X : Type) where
  | fCall (x : X)
  | dfCall (x : X)
  | iterStep (x : X)
  | reset

/-- Effect of one public operation on the iteration counter self.iterations
(modelled over ℤ to make non-negativity a provable invariant): f and df do
not touch it, iterate does self.iterations += 1 before anything else, and
reset_iterations sets it to 0. -/
def iterCounterStep {X : Type} (n : ℤ) : FidOp X → ℤ
  | FidOp.fCall _ => n
  | FidOp.dfCall _ => n
  | FidOp.iterStep _ => n + 1
  | FidOp.reset => 0

/-- The counter after a sequence of public operations, from a freshly
constructed instance (self.iterations = 0). -/
def iterCounterRunFrom {X : Type} (n : ℤ) (ops : List (FidOp X)) : ℤ :=
  ops.foldl iterCounterStep n

/-- An OperatorDistance instance: the duration and target fixed at
construction, together with the penalty override it may carry (inherited
from FidelityBase but never consulted by its f/df). -/
structure OpDist (U : Type) where
  t : ℚ
  target : U
  penalty : Ctrl → ℚ

/-- The combined state of an OperatorDistance metric: its system's cache
state plus the inherited iteration counter. -/
structure OpDistState (U DU : Type) where
  sys : PState U DU
  iterations : ℤ
deriving DecidableEq

/-- OperatorDistance.f: u = self.system.u(controls, self.t); then
operator_distance(u, self.target), where the distance metric dist is an
external collaborator.  Returns the value (or error), the new state and the
hook-invocation count. -/
def opdF {H D U DU : Type} (dist : U → U → ℚ) (P : SysParams H D U DU)
    (od : OpDist U) (st : OpDistState U DU) (controls : Ctrl) :
    Except PErr ℚ × OpDistState U DU × ℕ :=
  match uRun P st.sys controls od.t with
  | (Except.error e, s1, k) => (Except.error e, { st with sys := s1 }, k)
  | (Except.ok u, s1, k) => (Except.ok (dist u od.target), { st with sys := s1 }, k)

/-- OperatorDistance.df: u = system.u(controls, t) then du = system.du(controls, t)
then d_operator_distance(u, du, target), the gradient collaborator ddist. -/
def opdDf {H D U DU : Type} (ddist : U → DU → U → List ℚ) (P : SysParams H D U DU)
    (od : OpDist U) (st : OpDistState U DU) (controls : Ctrl) :
    Except PErr (List ℚ) × OpDistState U DU × ℕ :=
  match uRun P st.sys controls od.t with
  | (Except.error e, s1, k) => (Except.error e, { st with sys := s1 }, k)
  | (Except.ok u, s1, k) =>
    match duRun P s1 controls od.t with
    | (Except.error e, s2, k2) => (Except.error e, { st with sys := s2 }, k + k2)
    | (Except.ok du, s2, k2) =>
      (Except.ok (ddist u du od.target), { st with sys := s2 }, k + k2)

/-- The canonical solve outcome for an array operating point, evaluated at
mode count 0; for an nz-independent solver this is the outcome at any mode
count. -/
def canonicalSolve {H D U DU : Type} (P : SysParams H D U DU) (a : List ℚ)
    (t : ℚ) : Except Unit (SolveResult U DU) :=
  solveSeq P 0 (Ctrl.arr a) t

/-- States of an OperatorDistance instance reachable through its public
operations (f, df, iterate, reset_iterations) from a fresh instance whose
system was initialised with mode count nz0.  iterate recomputes f as a side
effect, so its system effect is that of an f call. -/
inductive OpReach {H D U DU : Type} (dist : U → U → ℚ) (ddist : U → DU → U → List ℚ)
    (P : SysParams H D U DU) (od : OpDist U) (nz0 : ℕ) : OpDistState U DU → Prop where
  | init : OpReach dist ddist P od nz0 ⟨initState U DU nz0, 0⟩
  | stepF (st : OpDistState U DU) (c : Ctrl) :
      OpReach dist ddist P od nz0 st →
      OpReach dist ddist P od nz0 (opdF dist P od st c).2.1
  | stepDf (st : OpDistState U DU) (c : Ctrl) :
      OpReach dist ddist P od nz0 st →
      OpReach dist ddist P od nz0 (opdDf ddist P od st c).2.1
  | stepIterate (st : OpDistState U DU) (c : Ctrl) :
      OpReach dist ddist P od nz0 st →
      OpReach dist ddist P od nz0
        (let st1 : OpDistState U DU := { st with iterations := st.iterations + 1 }
         (opdF dist P od st1 c).2.1)
  | stepReset (st : OpDistState U DU) :
      OpReach dist ddist P od nz0 st →
      OpReach dist ddist P od nz0 { st with iterations := 0 }

/- ================= Section 4: Gram-Schmidt (matrix.py) =================== -/

section GramSchmidt

variable {K : Type} [Field K] [StarRing K] [DecidableEq K] {d : ℕ}

/-- matrix.py product(a, b) = np.conj(a).dot(b): the quantum-mechanical inner
product, conjugate-linear in the first argument.  A d-dimensional complex
vector (one row of the numpy input array) is a function Fin d → K. -/
def product (a b : Fin d → K) : K := ∑ i, star (a i) * b i

/-- matrix.py norm(a) = np.sqrt(product(a, a)); the external numpy square
root is the explicit parameter sqrt. -/
def norm (sqrt : K → K) (a : Fin d → K) : K := sqrt (product a a)

/-- The inner loop of gram_schmidt for one vector v against the already
orthonormalised rows acc (in order): repeatedly q = q - product(e, q) * e,
re-reading the updated residual each step (modified Gram-Schmidt). -/
def gsResid (acc : List (Fin d → K)) (v : Fin d → K) : Fin d → K :=
  acc.foldl (fun q e => q - product e q • e) v

/-- The elementwise division q / norm(q) storing a finished row. -/
def gsNormalize (sqrt : K → K) (q : Fin d → K) : Fin d → K :=
  fun i => q i / sqrt (product q q)

/-- The main loop of gram_schmidt: residual, exact-zero norm check (raising
ArithmeticError, modelled as none), then normalise and append.  The source's
separate j = 0 case is the acc = [] instance of the same computation: the
residual of the first vector is the vector itself. -/
def gsAux (sqrt : K → K) (acc : List (Fin d → K)) :
    List (Fin d → K) → Option (List (Fin d → K))
  | [] => some acc
  | v :: rest =>
    let q := gsResid acc v
    if sqrt (product q q) = 0 then none
    else gsAux sqrt (acc ++ [gsNormalize sqrt q]) rest

/-- matrix.py gram_schmidt on the list of rows; none models the raised
ArithmeticError (DegenerateVectorError of the specification). -/
def gram_schmidt (sqrt : K → K) (vecs : List (Fin d → K)) :
    Option (List (Fin d → K)) :=
  gsAux sqrt [] vecs

/-- The same recursion with the zero check skipped (division by a zero norm
just stores junk); used to name the vectors the partial computation visits. -/
def gsTAux (sqrt : K → K) (acc : List (Fin d → K)) :
    List (Fin d → K) → List (Fin d → K)
  | [] => acc
  | v :: rest => gsTAux sqrt (acc ++ [gsNormalize sqrt (gsResid acc v)]) rest

/-- The total run from the empty accumulator. -/
def gsT (sqrt : K → K) (vecs : List (Fin d → K)) : List (Fin d → K) :=
  gsTAux sqrt [] vecs

/-- The intermediate residual the computation forms for row j (for j = 0 this
is the first input vector itself). -/
def residAt (sqrt : K → K) (vecs : List (Fin d → K)) (j : ℕ) : Fin d → K :=
  gsResid (gsT sqrt (vecs.take j)) (vecs.getD j 0)

/-- An orthonormal list of vectors: unit product with itself, vanishing
product pairwise (in both argument orders). -/
def ONSet (acc : List (Fin d → K)) : Prop :=
  (∀ e ∈ acc, product e e = 1) ∧
    acc.Pairwise (fun a b => product a b = 0 ∧ product b a = 0)

end GramSchmidt

/- ================= Section 5: concrete instances for witnesses =========== -/

/-- A 0.1-style multiplicative perturbation of the 1x1 identity by 1e-6:
its defect against the identity exceeds atol = 1e-10 but stays inside
numpy's default relative band. -/
def uPert : Fin 1 → Fin 1 → CQ := fun _ _ => ⟨1 + 1 / 1000000, 0⟩

/-- A 1x1 matrix 0.1 away from the identity. -/
def uPert01 : Fin 1 → Fin 1 → CQ := fun _ _ => ⟨11 / 10, 0⟩

/-- A concrete default-penalty metric used as a witness input. -/
def w6m : FidelityBase ℕ :=
  ⟨fun _ => 3, fun _ => [1, 2], defaultPenalty ℕ, defaultDPenalty ℕ⟩

/-- Three concrete ensemble members whose f values at any input are
0.1, 0.2, 0.3 with gradients [0.1, 0.3], [0.2, 0.3], [0.3, 0.3]. -/
def w8fids : List (FidelityBase ℕ) :=
  [⟨fun _ => 1 / 10, fun _ => [1 / 10, 3 / 10], defaultPenalty ℕ, defaultDPenalty ℕ⟩,
   ⟨fun _ => 2 / 10, fun _ => [2 / 10, 3 / 10], defaultPenalty ℕ, defaultDPenalty ℕ⟩,
   ⟨fun _ => 3 / 10, fun _ => [3 / 10, 3 / 10], defaultPenalty ℕ, defaultDPenalty ℕ⟩]

/-- A solver for the C1/C10 witnesses: always succeeds, keeping the mode
count it was given. -/
def w1P : SysParams ℕ ℕ ℕ ℕ :=
  ⟨fun _ => Except.ok 0, fun _ => Except.ok 0,
   fun _ _ n _ _ => Except.ok ⟨5, 7, n⟩, 1⟩

/-- A cache state holding the key ([1], 2) and a stored solve result. -/
def w1s : PState ℕ ℕ := ⟨some (Ctrl.arr [1]), some 2, some ⟨5, 7, 3⟩, 3⟩

/-- External collaborators whose hook raises at the operating point [2]
(modelling a failing Hamiltonian build), succeeding elsewhere. -/
def w10P : SysParams ℕ ℕ ℕ ℕ :=
  ⟨fun c => if c = Ctrl.arr [2] then Except.error () else Except.ok 0,
   fun _ => Except.ok 0, fun _ _ n _ _ => Except.ok ⟨9, 8, n⟩, 1⟩

/-- A cache state after an earlier successful solve at ([1], 3). -/
def w10s : PState ℕ ℕ := ⟨some (Ctrl.arr [1]), some 3, some ⟨9, 8, 0⟩, 0⟩

/-- The cache invariant behind referential transparency: whenever the stored
key is an array operating point whose canonical solve succeeds, the stored
result is that canonical result. -/
def cacheConsistent {H D U DU : Type} (P : SysParams H D U DU) (s : PState U DU) : Prop :=
  ∀ a t r, s.last_controls = some (Ctrl.arr a) → s.last_t = some t →
    canonicalSolve P a t = Except.ok r → s.fixed = some r

/-- An nz-dependent external solver for the C2 counterexample: the returned
propagator is the mode count the solver was handed, and every solve bumps
the adapted count by one. -/
def exP : SysParams Unit Unit ℕ ℕ :=
  ⟨fun _ => Except.ok (), fun _ => Except.ok (),
   fun _ _ n _ _ => Except.ok ⟨n, n, n + 1⟩, 1⟩

/-- A distance collaborator returning the propagator itself. -/
def exDist : ℕ → ℕ → ℚ := fun u _ => (u : ℚ)

/-- A gradient collaborator echoing propagator and derivative. -/
def exDDist : ℕ → ℕ → ℕ → List ℚ := fun u du _ => [(u : ℚ), (du : ℚ)]

/-- An OperatorDistance bound to duration 1 and target 0. -/
def exOd : OpDist ℕ := ⟨1, 0, fun _ => 0⟩

/-- The OperatorDistance state reached by evaluating f once at controls [2]
from a fresh instance with initial mode count 0. -/
def exSt2 : OpDistState ℕ ℕ := ⟨⟨some (Ctrl.arr [2]), some 1, some ⟨0, 0, 1⟩, 1⟩, 0⟩

/-- A well-behaved (nz-independent, total) solver for the C2 witness. -/
def wc2P : SysParams ℕ ℕ ℕ ℕ :=
  ⟨fun _ => Except.ok 0, fun _ => Except.ok 0,
   fun _ _ _ _ _ => Except.ok ⟨5, 7, 2⟩, 1⟩

/-- A square-root function for Gram-Schmidt witnesses: exact on the values
the witness runs encounter, nonzero away from zero. -/
def wsqrt : ℚ → ℚ := fun q =>
  if q = 0 then 0 else if q = 25 then 5 else if q = 16 / 25 then 4 / 5 else 1

/-- First witness row. -/
def wvec0 : Fin 2 → ℚ := ![3, 4]

/-- Second witness row. -/
def wvec1 : Fin 2 → ℚ := ![1, 0]

/-- Two linearly independent rows for the C4 witness. -/
def wvecs : List (Fin 2 → ℚ) := [wvec0, wvec1]

/-- A single zero row for the C3 witness. -/
def wzvecs : List (Fin 2 → ℚ) := [fun _ => 0]

/- ================= Section 6: theorems =================================== -/

/-- Claim C6: on the fidelity base contract, f is coreFidelity plus penalty
and df is coreGradient plus penaltyGradient (broadcast), and the default
penalty hooks contribute exactly zero, making f and df coincide with the
core hooks. -/
theorem fidelity_composes_core_and_penalty {X : Type} (m : FidelityBase X) (x : X) :
    FidelityBase.f m x = m.core_f x + m.penalty x
  ∧ FidelityBase.df m x = gradAdd (m.core_df x) (m.d_penalty x)
  ∧ (m.penalty = defaultPenalty X → FidelityBase.f m x = m.core_f x)
  ∧ (m.d_penalty = defaultDPenalty X → FidelityBase.df m x = m.core_df x) := by
  refine ⟨rfl, rfl, ?_, ?_⟩
  · intro h
    simp [FidelityBase.f, h, defaultPenalty]
  · intro h
    simp [FidelityBase.df, h, defaultDPenalty, gradAdd]

/-- Witness for C6 at a concrete default-penalty metric: f and df reduce to
the core hooks. -/
theorem fidelity_composes_core_and_penalty_witness :
    FidelityBase.f w6m 0 = w6m.core_f 0 ∧ FidelityBase.df w6m 0 = w6m.core_df 0 :=
  ⟨(fidelity_composes_core_and_penalty w6m 0).2.2.1 rfl,
   (fidelity_composes_core_and_penalty w6m 0).2.2.2 rfl⟩

/-- The iteration counter stays nonnegative along any run. -/
theorem iterCounter_nonneg {X : Type} (ops : List (FidOp X)) (n : ℤ) (hn : 0 ≤ n) :
    0 ≤ iterCounterRunFrom n ops := by
  induction ops generalizing n with
  | nil => exact hn
  | cons op rest ih =>
    cases op with
    | fCall x => exact ih n hn
    | dfCall x => exact ih n hn
    | iterStep x => exact ih (n + 1) (by omega)
    | reset => exact ih 0 le_rfl

/-- Claim C9: iterate adds exactly 1 to the iteration counter whatever the
input, resetIterations zeroes it, no public operation other than reset ever
decreases it, and along any operation sequence from a fresh instance the
counter stays a nonnegative integer. -/
theorem iteration_counter_monotone {X : Type} (n : ℤ) (x : X) (op : FidOp X)
    (ops : List (FidOp X)) :
    iterCounterStep n (FidOp.iterStep x) = n + 1
  ∧ iterCounterStep n (FidOp.reset (X := X)) = 0
  ∧ (op ≠ FidOp.reset → n ≤ iterCounterStep n op)
  ∧ 0 ≤ iterCounterRunFrom 0 ops := by
  refine ⟨rfl, rfl, ?_, iterCounter_nonneg ops 0 le_rfl⟩
  intro hop
  cases op with
  | fCall y => exact le_rfl
  | dfCall y => exact le_rfl
  | iterStep y => exact by simp [iterCounterStep]
  | reset => exact absurd rfl hop

/-- Witness for C9 at a concrete counter value, input and operation list. -/
theorem iteration_counter_monotone_witness :
    iterCounterStep 5 (FidOp.iterStep (0 : ℕ)) = 5 + 1
  ∧ iterCounterStep 5 (FidOp.reset (X := ℕ)) = 0
  ∧ (5 : ℤ) ≤ iterCounterStep 5 (FidOp.fCall (0 : ℕ))
  ∧ 0 ≤ iterCounterRunFrom 0 [FidOp.iterStep (0 : ℕ), FidOp.reset] := by
  have h := iteration_counter_monotone (X := ℕ) 5 0 (FidOp.fCall 0)
    [FidOp.iterStep 0, FidOp.reset]
  exact ⟨h.1, h.2.1, h.2.2.1 (fun hc => FidOp.noConfusion hc), h.2.2.2⟩

/-- getD distributes over an elementwise sum of two equal-length vectors. -/
theorem getD_zipWith_add (a b : List ℚ) (hb : a.length = b.length) (k : ℕ) :
    (List.zipWith (fun x y => x + y) a b).getD k 0 = a.getD k 0 + b.getD k 0 := by
  by_cases h : k < a.length
  · rw [List.getD_eq_getElem _ _ (by simp [List.length_zipWith]; omega),
      List.getD_eq_getElem _ _ h, List.getD_eq_getElem _ _ (by omega)]
    simp [List.getElem_zipWith]
  · rw [List.getD_eq_default _ _ (by simp [List.length_zipWith]; omega),
      List.getD_eq_default _ _ (by omega), List.getD_eq_default _ _ (by omega)]
    norm_num

/-- getD distributes over elementwise division by a scalar. -/
theorem getD_map_div (l : List ℚ) (c : ℚ) (k : ℕ) :
    (l.map (fun x => x / c)).getD k 0 = l.getD k 0 / c := by
  by_cases h : k < l.length
  · rw [List.getD_eq_getElem _ _ (by simpa using h), List.getD_eq_getElem _ _ h]
    simp
  · rw [List.getD_eq_default _ _ (by simpa using not_lt.mp h),
      List.getD_eq_default _ _ (by omega)]
    norm_num

/-- The elementwise sum of a nonempty family of length-L vectors has length L. -/
theorem sumAxis0_length {L : ℕ} :
    ∀ vs : List (List ℚ), vs ≠ [] → (∀ v ∈ vs, v.length = L) →
      (sumAxis0 vs).length = L
  | [], h, _ => absurd rfl h
  | [v], _, hl => by simpa [sumAxis0] using hl v (by simp)
  | v :: w :: vs, _, hl => by
    rw [show sumAxis0 (v :: w :: vs) =
        List.zipWith (fun x y => x + y) v (sumAxis0 (w :: vs)) from rfl]
    have h1 : v.length = L := hl v (by simp)
    have h2 : (sumAxis0 (w :: vs)).length = L :=
      sumAxis0_length (w :: vs) (by simp) (fun u hu => hl u (by simp [hu]))
    simp [List.length_zipWith, h1, h2]

/-- Entry k of the elementwise sum is the sum of the entries k. -/
theorem sumAxis0_getD {L : ℕ} :
    ∀ vs : List (List ℚ), (∀ v ∈ vs, v.length = L) → ∀ k : ℕ,
      (sumAxis0 vs).getD k 0 = (vs.map (fun v => v.getD k 0)).sum
  | [], _, k => by simp [sumAxis0]
  | [v], _, k => by simp [sumAxis0]
  | v :: w :: vs, hl, k => by
    rw [show sumAxis0 (v :: w :: vs) =
        List.zipWith (fun x y => x + y) v (sumAxis0 (w :: vs)) from rfl]
    have h1 : v.length = L := hl v (by simp)
    have h2 : (sumAxis0 (w :: vs)).length = L :=
      sumAxis0_length (w :: vs) (by simp) (fun u hu => hl u (by simp [hu]))
    rw [getD_zipWith_add v _ (by omega)]
    rw [sumAxis0_getD (w :: vs) (fun u hu => hl u (by simp [hu])) k]
    simp

/-- Claim C8: for a nonempty ensemble, coreFidelity is the arithmetic mean of
the members' f values and coreGradient is the elementwise arithmetic mean of
the members' df vectors, preserving the gradient length. -/
theorem ensemble_mean_fidelity {X : Type} (fids : List (FidelityBase X)) (x : X)
    (L : ℕ) (hne : fids ≠ [])
    (hlen : ∀ m ∈ fids, (FidelityBase.df m x).length = L) :
    ensembleCoreF fids x = (fids.map (fun m => FidelityBase.f m x)).sum / fids.length
  ∧ (ensembleCoreDf fids x).length = L
  ∧ ∀ k : ℕ, (ensembleCoreDf fids x).getD k 0 =
      (fids.map (fun m => (FidelityBase.df m x).getD k 0)).sum / fids.length := by
  have hvs : ∀ v ∈ fids.map (fun m => FidelityBase.df m x), v.length = L := by
    intro v hv
    obtain ⟨m, hm, rfl⟩ := List.mem_map.mp hv
    exact hlen m hm
  have hvne : fids.map (fun m => FidelityBase.df m x) ≠ [] := by
    simpa using hne
  refine ⟨?_, ?_, ?_⟩
  · simp [ensembleCoreF, npMean]
  · have := sumAxis0_length (L := L) _ hvne hvs
    simp [ensembleCoreDf, npMeanAxis0, this]
  · intro k
    have hg := sumAxis0_getD (L := L) _ hvs k
    simp only [ensembleCoreDf, npMeanAxis0, getD_map_div, hg, List.map_map,
      List.length_map]
    rfl

/-- Witness for C8: three members with f values 0.1, 0.2, 0.3 produce the
mean 0.2 and a gradient of the ensemble's common length 2. -/
theorem ensemble_mean_fidelity_witness :
    ensembleCoreF w8fids 0 = 2 / 10 ∧ (ensembleCoreDf w8fids 0).length = 2 := by
  have h := ensemble_mean_fidelity w8fids 0 2 (by simp [w8fids])
    (by intro m hm; simp [w8fids] at hm; rcases hm with h | h | h <;> subst h <;> rfl)
  refine ⟨?_, h.2.1⟩
  rw [h.1]
  norm_num [w8fids, FidelityBase.f, defaultPenalty]

/-- Unfolding the CQ zero. -/
theorem CQ.zero_def : (0 : CQ) = ⟨0, 0⟩ := rfl

/-- adjoint(I) . I = I entrywise. -/
theorem adjointMulSelf_eye (n : ℕ) (i j : Fin n) :
    adjointMulSelf (eye n) i j = eye n i j := by
  unfold adjointMulSelf
  have hsummand : ∀ k : Fin n,
      CQ.mul (CQ.conj (eye n k i)) (eye n k j) = if k = i then eye n i j else 0 := by
    intro k
    by_cases hk : k = i
    · subst hk
      by_cases hj : k = j <;>
        simp [eye, CQ.mul, CQ.conj, CQ.zero_def, hj]
    · simp [eye, CQ.mul, CQ.conj, CQ.zero_def, hk]
  rw [Finset.sum_congr rfl (fun k _ => hsummand k)]
  simp

/-- Claim C5 (amended): is_unitary U tol is true exactly when every element
of adjoint(U).U deviates from the identity by at most tol + 1e-5 * |I_ij|
(numpy's allclose with its default rtol; the source only overrides atol), it
is true on the identity matrix, and a 0.1 diagonal perturbation of the
identity is rejected. -/
theorem is_unitary_allclose_characterisation {n : ℕ} (u : Fin n → Fin n → CQ)
    (tol : ℚ) :
    (is_unitary u tol = true ↔
      ∀ i j, CQ.absSq (CQ.sub (adjointMulSelf u i j) (eye n i j)) ≤
        (tol + rtolDefault * (if i = j then (1 : ℚ) else 0)) ^ 2)
  ∧ is_unitary (eye n) tol = true
  ∧ is_unitary uPert01 (1 / 10 ^ 10) = false := by
  refine ⟨by simp [is_unitary], ?_, ?_⟩
  · simp only [is_unitary, decide_eq_true_eq]
    intro i j
    rw [adjointMulSelf_eye]
    have h1 : CQ.sub (eye n i j) (eye n i j) = ⟨0, 0⟩ := by
      simp [CQ.sub]
    rw [h1]
    have h2 : CQ.absSq ⟨0, 0⟩ = 0 := by norm_num [CQ.absSq]
    rw [h2]
    exact sq_nonneg _
  · simp only [is_unitary, decide_eq_false_iff_not]
    intro hall
    have h := hall 0 0
    norm_num [adjointMulSelf, Fin.sum_univ_one, uPert01, eye, CQ.mul, CQ.conj,
      CQ.sub, CQ.absSq, rtolDefault] at h

/-- Counterexample to C5 as stated: a multiplicative 1e-6 perturbation of the
1x1 identity is accepted by is_unitary with tolerance 1e-10 although the
deviation of adjoint(U).U from the identity exceeds that tolerance — the
claimed atol-only criterion does not describe the code. -/
theorem is_unitary_cex :
    is_unitary uPert (1 / 10 ^ 10) = true
  ∧ ¬ (∀ i j, CQ.absSq (CQ.sub (adjointMulSelf uPert i j) (eye 1 i j)) ≤
      ((1 : ℚ) / 10 ^ 10) ^ 2) := by
  constructor
  · simp only [is_unitary, decide_eq_true_eq]
    intro i j
    have hi : i = 0 := Subsingleton.elim i 0
    have hj : j = 0 := Subsingleton.elim j 0
    subst hi; subst hj
    norm_num [adjointMulSelf, Fin.sum_univ_one, uPert, eye, CQ.mul, CQ.conj,
      CQ.sub, CQ.absSq, rtolDefault]
  · intro hall
    have h := hall 0 0
    norm_num [adjointMulSelf, Fin.sum_univ_one, uPert, eye, CQ.mul, CQ.conj,
      CQ.sub, CQ.absSq] at h

/-- _is_cached is true exactly on the specification's cache-key match. -/
theorem isCached_true_iff {U DU : Type} (s : PState U DU) (c : Ctrl) (t : ℚ) :
    isCached s c t = true ↔ cacheMatch s c t := by
  cases c with
  | other => simp [isCached, cacheMatch]
  | arr a =>
    by_cases ht : s.last_t = some t
    · cases hlc : s.last_controls with
      | none => simp [isCached, cacheMatch, arrayEqual, ht, hlc]
      | some cv =>
        cases cv with
        | arr l =>
          constructor
          · intro h
            have hl : l = a := by
              simpa [isCached, arrayEqual, ht, hlc] using h
            exact ⟨a, rfl, by rw [hlc, hl], ht⟩
          · rintro ⟨a', ha', hl, -⟩
            obtain rfl : a = a' := by
              simpa using ha'
            rw [hlc] at hl
            obtain rfl : l = a := by
              simpa using hl
            simp [isCached, arrayEqual, ht, hlc]
        | other => simp [isCached, cacheMatch, arrayEqual, ht, hlc]
    · simp [isCached, cacheMatch, ht]

/-- A cache hit on u returns the stored propagator without touching state. -/
theorem uRun_hit {H D U DU : Type} (P : SysParams H D U DU) {s : PState U DU}
    {c : Ctrl} {t : ℚ} {r : SolveResult U DU} (h : isCached s c t = true)
    (hfix : s.fixed = some r) : uRun P s c t = (Except.ok r.u, s, 0) := by
  simp [uRun, h, hfix]

/-- A cache hit on du returns the stored derivative without touching state. -/
theorem duRun_hit {H D U DU : Type} (P : SysParams H D U DU) {s : PState U DU}
    {c : Ctrl} {t : ℚ} {r : SolveResult U DU} (h : isCached s c t = true)
    (hfix : s.fixed = some r) : duRun P s c t = (Except.ok r.du, s, 0) := by
  simp [duRun, h, hfix]

/-- A miss on u invokes the Hamiltonian-builder hooks exactly once and
overwrites the cache key with the queried operating point. -/
theorem uRun_miss {H D U DU : Type} (P : SysParams H D U DU) (s : PState U DU)
    (c : Ctrl) (t : ℚ) (h : isCached s c t = false) :
    (uRun P s c t).2.2 = 1 ∧ (uRun P s c t).2.1.last_controls = some c ∧
      (uRun P s c t).2.1.last_t = some t := by
  rcases hsc : solveSeq P s.nz c t with e | r2 <;>
    simp [uRun, h, setCached, hsc]

/-- A miss on du invokes the hooks exactly once and overwrites the key. -/
theorem duRun_miss {H D U DU : Type} (P : SysParams H D U DU) (s : PState U DU)
    (c : Ctrl) (t : ℚ) (h : isCached s c t = false) :
    (duRun P s c t).2.2 = 1 ∧ (duRun P s c t).2.1.last_controls = some c ∧
      (duRun P s c t).2.1.last_t = some t := by
  rcases hsc : solveSeq P s.nz c t with e | r2 <;>
    simp [duRun, h, setCached, hsc]

/-- After any call with proper-array controls, the very same query hits. -/
theorem isCached_after_key {U DU : Type} (s : PState U DU) (a : List ℚ) (t : ℚ)
    (h1 : s.last_controls = some (Ctrl.arr a)) (h2 : s.last_t = some t) :
    isCached s (Ctrl.arr a) t = true := by
  simp [isCached, arrayEqual, h1, h2]

/-- Claim C1: with a stored solve result present, u (resp. du) returns the
stored value with zero hook invocations exactly when the controls are a
proper numeric array value-equal to the stored key and the duration matches
exactly; consequently u-then-du (either order) on one array operating point
performs at most one solve, and any mismatch forces a fresh solve. -/
theorem cache_hit_iff_exact_key {H D U DU : Type} (P : SysParams H D U DU)
    (s : PState U DU) (c : Ctrl) (t : ℚ) (r : SolveResult U DU)
    (hfix : s.fixed = some r) :
    (((uRun P s c t).1 = Except.ok r.u ∧ (uRun P s c t).2.2 = 0) ↔ cacheMatch s c t)
  ∧ (((duRun P s c t).1 = Except.ok r.du ∧ (duRun P s c t).2.2 = 0) ↔ cacheMatch s c t)
  ∧ (∀ a, c = Ctrl.arr a →
      (uRun P s c t).2.2 + (duRun P (uRun P s c t).2.1 c t).2.2 ≤ 1
    ∧ (duRun P s c t).2.2 + (uRun P (duRun P s c t).2.1 c t).2.2 ≤ 1)
  ∧ (¬ cacheMatch s c t → (uRun P s c t).2.2 = 1 ∧ (duRun P s c t).2.2 = 1) := by
  refine ⟨?_, ?_, ?_, ?_⟩
  · constructor
    · rintro ⟨-, hcount⟩
      cases h : isCached s c t with
      | true => exact (isCached_true_iff s c t).mp h
      | false => exact absurd ((uRun_miss P s c t h).1) (by rw [hcount]; omega)
    · intro hm
      rw [uRun_hit P ((isCached_true_iff s c t).mpr hm) hfix]
      exact ⟨rfl, rfl⟩
  · constructor
    · rintro ⟨-, hcount⟩
      cases h : isCached s c t with
      | true => exact (isCached_true_iff s c t).mp h
      | false => exact absurd ((duRun_miss P s c t h).1) (by rw [hcount]; omega)
    · intro hm
      rw [duRun_hit P ((isCached_true_iff s c t).mpr hm) hfix]
      exact ⟨rfl, rfl⟩
  · rintro a rfl
    constructor
    · cases h : isCached s (Ctrl.arr a) t with
      | true =>
        have h1 := uRun_hit P h hfix
        have h2 := duRun_hit P h hfix
        rw [h1, h2]
        norm_num
      | false =>
        obtain ⟨hc, hk1, hk2⟩ := uRun_miss P s (Ctrl.arr a) t h
        have hhit : isCached (uRun P s (Ctrl.arr a) t).2.1 (Ctrl.arr a) t = true :=
          isCached_after_key _ a t hk1 hk2
        have : (duRun P (uRun P s (Ctrl.arr a) t).2.1 (Ctrl.arr a) t).2.2 = 0 := by
          simp [duRun, hhit]
          rcases hfx : (uRun P s (Ctrl.arr a) t).2.1.fixed with - | r2 <;> simp [hfx]
        omega
    · cases h : isCached s (Ctrl.arr a) t with
      | true =>
        have h1 := duRun_hit P h hfix
        have h2 := uRun_hit P h hfix
        rw [h1, h2]
        norm_num
      | false =>
        obtain ⟨hc, hk1, hk2⟩ := duRun_miss P s (Ctrl.arr a) t h
        have hhit : isCached (duRun P s (Ctrl.arr a) t).2.1 (Ctrl.arr a) t = true :=
          isCached_after_key _ a t hk1 hk2
        have : (uRun P (duRun P s (Ctrl.arr a) t).2.1 (Ctrl.arr a) t).2.2 = 0 := by
          simp [uRun, hhit]
          rcases hfx : (duRun P s (Ctrl.arr a) t).2.1.fixed with - | r2 <;> simp [hfx]
        omega
  · intro hmm
    have h : isCached s c t = false := by
      cases h : isCached s c t with
      | true => exact absurd ((isCached_true_iff s c t).mp h) hmm
      | false => rfl
    exact ⟨(uRun_miss P s c t h).1, (duRun_miss P s c t h).1⟩

/-- Witness for C1: a concrete system with a stored result at key ([1], 2);
the matching query hits with zero hook calls and any instantiation of the
remaining clauses is available. -/
theorem cache_hit_iff_exact_key_witness :
    ((uRun w1P w1s (Ctrl.arr [1]) 2).1 = Except.ok (5 : ℕ) ∧
      (uRun w1P w1s (Ctrl.arr [1]) 2).2.2 = 0) ↔ cacheMatch w1s (Ctrl.arr [1]) 2 :=
  (cache_hit_iff_exact_key w1P w1s (Ctrl.arr [1]) 2 ⟨5, 7, 3⟩ rfl).1

/-- Claim C7: OperatorDistance computes f as distance(u(controls, t), target)
and df as distanceGradient(u, du, target) on the sequentially threaded cache
state, and the penalty override plays no role in either value: the
penalty-addition mechanism of the base class is bypassed. -/
theorem operator_distance_bypasses_penalty {H D U DU : Type} (dist : U → U → ℚ)
    (ddist : U → DU → U → List ℚ) (P : SysParams H D U DU) (od : OpDist U)
    (st : OpDistState U DU) (c : Ctrl) :
    (opdF dist P od st c).1 = (uRun P st.sys c od.t).1.map (fun u => dist u od.target)
  ∧ (opdF dist P od st c).2.1.sys = (uRun P st.sys c od.t).2.1
  ∧ (opdDf ddist P od st c).1 =
      ((uRun P st.sys c od.t).1.bind (fun u =>
        ((duRun P (uRun P st.sys c od.t).2.1 c od.t).1).map
          (fun du => ddist u du od.target)))
  ∧ (∀ pen, opdF dist P { od with penalty := pen } st c = opdF dist P od st c)
  ∧ (∀ pen, opdDf ddist P { od with penalty := pen } st c = opdDf ddist P od st c) := by
  refine ⟨?_, ?_, ?_, fun pen => rfl, fun pen => rfl⟩
  · rcases hu : uRun P st.sys c od.t with ⟨ru, s1, k⟩
    cases ru <;> simp [opdF, hu, Except.map]
  · rcases hu : uRun P st.sys c od.t with ⟨ru, s1, k⟩
    cases ru <;> simp [opdF, hu, Except.map]
  · rcases hu : uRun P st.sys c od.t with ⟨ru, s1, k⟩
    cases ru with
    | error e => simp [opdDf, hu, Except.bind]
    | ok u =>
      rcases hdu : duRun P s1 c od.t with ⟨rdu, s2, k2⟩
      cases rdu <;> simp [opdDf, hu, hdu, Except.bind, Except.map]

/-- Claim C10: when the hooks or the solver fail during a miss, the cache key
has already been overwritten with the new operating point while the stored
solve result is untouched; after an earlier successful solve, re-querying the
same (controls, duration) is then a hit returning the stale propagator and
derivative with no fresh solve: the cache update is not atomic with respect
to solver failure. -/
theorem cache_poisoned_after_failed_solve {H D U DU : Type} (P : SysParams H D U DU)
    (s : PState U DU) (c : Ctrl) (t : ℚ)
    (hmiss : isCached s c t = false)
    (hfail : solveSeq P s.nz c t = Except.error ()) :
    ((uRun P s c t).1 = Except.error PErr.raised
      ∧ (uRun P s c t).2.1 = { s with last_controls := some c, last_t := some t }
      ∧ (duRun P s c t).1 = Except.error PErr.raised
      ∧ (duRun P s c t).2.1 = { s with last_controls := some c, last_t := some t })
  ∧ (∀ a r, c = Ctrl.arr a → s.fixed = some r →
      uRun P (uRun P s c t).2.1 c t = (Except.ok r.u, (uRun P s c t).2.1, 0)
    ∧ duRun P (uRun P s c t).2.1 c t = (Except.ok r.du, (uRun P s c t).2.1, 0)) := by
  have hu : uRun P s c t =
      (Except.error PErr.raised, { s with last_controls := some c, last_t := some t }, 1) := by
    simp [uRun, hmiss, setCached, hfail]
  have hdu : duRun P s c t =
      (Except.error PErr.raised, { s with last_controls := some c, last_t := some t }, 1) := by
    simp [duRun, hmiss, setCached, hfail]
  refine ⟨⟨by rw [hu], by rw [hu], by rw [hdu], by rw [hdu]⟩, ?_⟩
  rintro a r rfl hfix
  rw [hu]
  have hhit : isCached
      ({ s with last_controls := some (Ctrl.arr a), last_t := some t } : PState U DU)
      (Ctrl.arr a) t = true := isCached_after_key _ a t rfl rfl
  have hfix2 : ({ s with last_controls := some (Ctrl.arr a), last_t := some t } :
      PState U DU).fixed = some r := hfix
  exact ⟨uRun_hit P hhit hfix2, duRun_hit P hhit hfix2⟩

/-- Witness for C10: a hook failing at controls [2] after a successful solve
at [1] leaves the poisoned key ([2], 3); the follow-up query at ([2], 3) is a
hit returning the stale result computed for [1]. -/
theorem cache_poisoned_after_failed_solve_witness :
    (uRun w10P w10s (Ctrl.arr [2]) 3).1 = Except.error PErr.raised
  ∧ uRun w10P (uRun w10P w10s (Ctrl.arr [2]) 3).2.1 (Ctrl.arr [2]) 3 =
      (Except.ok (9 : ℕ), (uRun w10P w10s (Ctrl.arr [2]) 3).2.1, 0) := by
  have h := cache_poisoned_after_failed_solve w10P w10s (Ctrl.arr [2]) 3
    (by decide) (by rfl)
  exact ⟨h.1.1, (h.2 [2] ⟨9, 8, 0⟩ rfl rfl).1⟩

/-- For an nz-independent solver the miss-time solve sequence does not depend
on the current mode count. -/
theorem solveSeq_nz_indep {H D U DU : Type} (P : SysParams H D U DU)
    (hnz : ∀ h d n ω t, P.solve h d n ω t = P.solve h d 0 ω t)
    (n : ℕ) (c : Ctrl) (t : ℚ) : solveSeq P n c t = solveSeq P 0 c t := by
  unfold solveSeq
  rcases hh : P.hf c with e | h
  · rfl
  · rcases hd : P.dhf c with e | d
    · rfl
    · simpa using hnz h d n P.omega t

/-- u preserves cache consistency (nz-independent solver). -/
theorem uRun_preserves_consistent {H D U DU : Type} (P : SysParams H D U DU)
    (hnz : ∀ h d n ω t, P.solve h d n ω t = P.solve h d 0 ω t)
    (s : PState U DU) (c : Ctrl) (t : ℚ) (hc : cacheConsistent P s) :
    cacheConsistent P (uRun P s c t).2.1 := by
  cases h : isCached s c t with
  | true =>
    rcases hfx : s.fixed with - | r <;> simpa [uRun, h, hfx] using hc
  | false =>
    rcases hsc : solveSeq P s.nz c t with e | r
    · simp only [uRun, h, setCached, hsc]
      intro a t' r' hlc hlt hcanon
      obtain rfl : c = Ctrl.arr a := by simpa using hlc
      obtain rfl : t = t' := by simpa using hlt
      rw [canonicalSolve, ← solveSeq_nz_indep P hnz s.nz, hsc] at hcanon
      cases hcanon
    · simp only [uRun, h, setCached, hsc]
      intro a t' r' hlc hlt hcanon
      obtain rfl : c = Ctrl.arr a := by simpa using hlc
      obtain rfl : t = t' := by simpa using hlt
      rw [canonicalSolve, ← solveSeq_nz_indep P hnz s.nz, hsc] at hcanon
      simpa using hcanon

/-- du preserves cache consistency (nz-independent solver). -/
theorem duRun_preserves_consistent {H D U DU : Type} (P : SysParams H D U DU)
    (hnz : ∀ h d n ω t, P.solve h d n ω t = P.solve h d 0 ω t)
    (s : PState U DU) (c : Ctrl) (t : ℚ) (hc : cacheConsistent P s) :
    cacheConsistent P (duRun P s c t).2.1 := by
  cases h : isCached s c t with
  | true =>
    rcases hfx : s.fixed with - | r <;> simpa [duRun, h, hfx] using hc
  | false =>
    rcases hsc : solveSeq P s.nz c t with e | r
    · simp only [duRun, h, setCached, hsc]
      intro a t' r' hlc hlt hcanon
      obtain rfl : c = Ctrl.arr a := by simpa using hlc
      obtain rfl : t = t' := by simpa using hlt
      rw [canonicalSolve, ← solveSeq_nz_indep P hnz s.nz, hsc] at hcanon
      cases hcanon
    · simp only [duRun, h, setCached, hsc]
      intro a t' r' hlc hlt hcanon
      obtain rfl : c = Ctrl.arr a := by simpa using hlc
      obtain rfl : t = t' := by simpa using hlt
      rw [canonicalSolve, ← solveSeq_nz_indep P hnz s.nz, hsc] at hcanon
      simpa using hcanon

/-- The system component of the state after an OperatorDistance f call. -/
theorem opdF_sys {H D U DU : Type} (dist : U → U → ℚ) (P : SysParams H D U DU)
    (od : OpDist U) (st : OpDistState U DU) (c : Ctrl) :
    (opdF dist P od st c).2.1.sys = (uRun P st.sys c od.t).2.1 := by
  rcases hu : uRun P st.sys c od.t with ⟨ru, s1, k⟩
  cases ru <;> simp [opdF, hu]

/-- The system component of the state after an OperatorDistance df call. -/
theorem opdDf_sys {H D U DU : Type} (ddist : U → DU → U → List ℚ)
    (P : SysParams H D U DU) (od : OpDist U) (st : OpDistState U DU) (c : Ctrl) :
    (opdDf ddist P od st c).2.1.sys = (uRun P st.sys c od.t).2.1 ∨
    (opdDf ddist P od st c).2.1.sys = (duRun P (uRun P st.sys c od.t).2.1 c od.t).2.1 := by
  rcases hu : uRun P st.sys c od.t with ⟨ru, s1, k⟩
  cases ru with
  | error e => left; simp [opdDf, hu]
  | ok u =>
    rcases hdu : duRun P s1 c od.t with ⟨rdu, s2, k2⟩
    cases rdu <;> right <;> simp [opdDf, hu, hdu]

/-- Every reachable OperatorDistance state has a consistent cache. -/
theorem opReach_consistent {H D U DU : Type} (dist : U → U → ℚ)
    (ddist : U → DU → U → List ℚ) (P : SysParams H D U DU) (od : OpDist U) (nz0 : ℕ)
    (hnz : ∀ h d n ω t, P.solve h d n ω t = P.solve h d 0 ω t)
    (st : OpDistState U DU) (h : OpReach dist ddist P od nz0 st) :
    cacheConsistent P st.sys := by
  induction h with
  | init =>
    intro a t r hlc hlt hcanon
    cases hlc
  | stepF st c hr ih =>
    rw [opdF_sys]
    exact uRun_preserves_consistent P hnz st.sys c od.t ih
  | stepDf st c hr ih =>
    rcases opdDf_sys ddist P od st c with h | h <;> rw [h]
    · exact uRun_preserves_consistent P hnz st.sys c od.t ih
    · exact duRun_preserves_consistent P hnz _ c od.t
        (uRun_preserves_consistent P hnz st.sys c od.t ih)
  | stepIterate st c hr ih =>
    rw [opdF_sys]
    exact uRun_preserves_consistent P hnz st.sys c od.t ih
  | stepReset st hr ih =>
    exact ih

/-- On a consistent cache, u at an operating point whose canonical solve
succeeds returns exactly the canonical propagator and leaves the canonical
result under the queried key. -/
theorem uRun_canonical {H D U DU : Type} (P : SysParams H D U DU)
    (hnz : ∀ h d n ω t, P.solve h d n ω t = P.solve h d 0 ω t)
    (s : PState U DU) (x : List ℚ) (t : ℚ) (r : SolveResult U DU)
    (hc : cacheConsistent P s) (hx : solveSeq P 0 (Ctrl.arr x) t = Except.ok r) :
    ∃ s' k, uRun P s (Ctrl.arr x) t = (Except.ok r.u, s', k)
      ∧ s'.last_controls = some (Ctrl.arr x) ∧ s'.last_t = some t
      ∧ s'.fixed = some r := by
  cases h : isCached s (Ctrl.arr x) t with
  | true =>
    obtain ⟨a, ha, hlc, hlt⟩ := (isCached_true_iff s (Ctrl.arr x) t).mp h
    obtain rfl : x = a := by simpa using ha
    have hfix : s.fixed = some r := hc x t r hlc hlt hx
    exact ⟨s, 0, uRun_hit P h hfix, hlc, hlt, hfix⟩
  | false =>
    have hsc : solveSeq P s.nz (Ctrl.arr x) t = Except.ok r := by
      rw [solveSeq_nz_indep P hnz, hx]
    refine ⟨⟨some (Ctrl.arr x), some t, some r, r.nz⟩, 1, ?_, rfl, rfl, rfl⟩
    simp [uRun, h, setCached, hsc]

/-- Claim C2 (amended): with an nz-independent solver and a successful solve
at the queried operating point, OperatorDistance f and df return the same
numeric value — the canonical one — from every state reachable through the
public operations, whatever its cache contents and iteration count. -/
theorem opdist_value_independent_of_cache_state {H D U DU : Type}
    (dist : U → U → ℚ) (ddist : U → DU → U → List ℚ) (P : SysParams H D U DU)
    (od : OpDist U) (nz0 : ℕ)
    (hnz : ∀ h d n ω t, P.solve h d n ω t = P.solve h d 0 ω t)
    (x : List ℚ) (r : SolveResult U DU)
    (hx : canonicalSolve P x od.t = Except.ok r)
    (st1 st2 : OpDistState U DU)
    (h1 : OpReach dist ddist P od nz0 st1) (h2 : OpReach dist ddist P od nz0 st2) :
    (opdF dist P od st1 (Ctrl.arr x)).1 = (opdF dist P od st2 (Ctrl.arr x)).1
  ∧ (opdDf ddist P od st1 (Ctrl.arr x)).1 = (opdDf ddist P od st2 (Ctrl.arr x)).1
  ∧ (opdF dist P od st1 (Ctrl.arr x)).1 = Except.ok (dist r.u od.target)
  ∧ (opdDf ddist P od st1 (Ctrl.arr x)).1 = Except.ok (ddist r.u r.du od.target) := by
  have main : ∀ st : OpDistState U DU, OpReach dist ddist P od nz0 st →
      (opdF dist P od st (Ctrl.arr x)).1 = Except.ok (dist r.u od.target)
    ∧ (opdDf ddist P od st (Ctrl.arr x)).1 = Except.ok (ddist r.u r.du od.target) := by
    intro st hst
    have hc := opReach_consistent dist ddist P od nz0 hnz st hst
    obtain ⟨s', k, hu, hlc, hlt, hfix⟩ :=
      uRun_canonical P hnz st.sys x od.t r hc hx
    have hhit : isCached s' (Ctrl.arr x) od.t = true := isCached_after_key s' x od.t hlc hlt
    have hdu : duRun P s' (Ctrl.arr x) od.t = (Except.ok r.du, s', 0) :=
      duRun_hit P hhit hfix
    constructor
    · simp [opdF, hu]
    · simp [opdDf, hu, hdu]
  obtain ⟨hf1, hdf1⟩ := main st1 h1
  obtain ⟨hf2, hdf2⟩ := main st2 h2
  exact ⟨by rw [hf1, hf2], by rw [hdf1, hdf2], hf1, hdf1⟩

/-- Counterexample to C2 as stated: with an nz-dependent external solver, two
reachable states of one OperatorDistance instance — the fresh state and the
state left by an earlier f evaluation at different controls — give different
numeric f values for the very same input [1]: the prior cache activity leaks
into the returned value through the adaptively updated mode count. -/
theorem opdist_cache_influences_value_cex :
    OpReach exDist exDDist exP exOd 0 ⟨initState ℕ ℕ 0, 0⟩
  ∧ OpReach exDist exDDist exP exOd 0 exSt2
  ∧ (opdF exDist exP exOd ⟨initState ℕ ℕ 0, 0⟩ (Ctrl.arr [1])).1 = Except.ok 0
  ∧ (opdF exDist exP exOd exSt2 (Ctrl.arr [1])).1 = Except.ok 1
  ∧ (opdF exDist exP exOd ⟨initState ℕ ℕ 0, 0⟩ (Ctrl.arr [1])).1 ≠
      (opdF exDist exP exOd exSt2 (Ctrl.arr [1])).1 := by
  have hreach : OpReach exDist exDDist exP exOd 0 exSt2 := by
    have h := @OpReach.stepF Unit Unit ℕ ℕ exDist exDDist exP exOd 0
      ⟨initState ℕ ℕ 0, 0⟩ (Ctrl.arr [2]) OpReach.init
    have hst : (opdF exDist exP exOd ⟨initState ℕ ℕ 0, 0⟩ (Ctrl.arr [2])).2.1 = exSt2 := by
      rfl
    rwa [hst] at h
  have h0 : (opdF exDist exP exOd ⟨initState ℕ ℕ 0, 0⟩ (Ctrl.arr [1])).1 =
      Except.ok 0 := by
    show Except.ok ((0 : ℕ) : ℚ) = Except.ok 0
    norm_num
  have h1 : (opdF exDist exP exOd exSt2 (Ctrl.arr [1])).1 = Except.ok 1 := by
    show Except.ok ((1 : ℕ) : ℚ) = Except.ok 1
    norm_num
  refine ⟨OpReach.init, hreach, h0, h1, ?_⟩
  rw [h0, h1]
  intro h
  have : (0 : ℚ) = 1 := by injection h
  norm_num at this

/-- Witness for amended C2: with a total nz-independent solver, the f value
at controls [1] is the canonical one both from the fresh state and from the
state left by an evaluation at the different controls [3]. -/
theorem opdist_value_independent_witness :
    (opdF exDist wc2P exOd ⟨initState ℕ ℕ 1, 0⟩ (Ctrl.arr [1])).1 =
      (opdF exDist wc2P exOd
        ((opdF exDist wc2P exOd ⟨initState ℕ ℕ 1, 0⟩ (Ctrl.arr [3])).2.1)
        (Ctrl.arr [1])).1
  ∧ (opdF exDist wc2P exOd ⟨initState ℕ ℕ 1, 0⟩ (Ctrl.arr [1])).1 =
      Except.ok (exDist 5 exOd.target) := by
  have h := opdist_value_independent_of_cache_state exDist exDDist wc2P exOd 1
    (fun _ _ _ _ _ => rfl) [1] ⟨5, 7, 2⟩ rfl ⟨initState ℕ ℕ 1, 0⟩
    ((opdF exDist wc2P exOd ⟨initState ℕ ℕ 1, 0⟩ (Ctrl.arr [3])).2.1)
    OpReach.init
    (@OpReach.stepF ℕ ℕ ℕ ℕ exDist exDDist wc2P exOd 1
      ⟨initState ℕ ℕ 1, 0⟩ (Ctrl.arr [3]) OpReach.init)
  exact ⟨h.1, h.2.2.1⟩

section GramSchmidtLemmas

variable {K : Type} [Field K] [StarRing K] {d : ℕ}

/-- The inner product is additive in its linear slot. -/
theorem product_sub_right (a b c : Fin d → K) :
    product a (b - c) = product a b - product a c := by
  simp [product, mul_sub, Finset.sum_sub_distrib]

/-- The inner product is linear in its second slot. -/
theorem product_smul_right (a b : Fin d → K) (c : K) :
    product a (c • b) = c * product a b := by
  simp [product, Finset.mul_sum, mul_left_comm]

/-- The inner product is conjugate-linear in its first slot. -/
theorem product_smul_left (a b : Fin d → K) (c : K) :
    product (c • a) b = star c * product a b := by
  simp [product, Finset.mul_sum, star_mul]
  congr 1
  funext i
  ring

/-- Conjugate symmetry of the inner product. -/
theorem product_conj (a b : Fin d → K) : product a b = star (product b a) := by
  simp [product, star_sum, star_mul]

/-- The inner product with the zero vector vanishes. -/
theorem product_zero_right (a : Fin d → K) : product a (0 : Fin d → K) = 0 := by
  simp [product]

/-- Normalisation is scalar multiplication by the inverse norm. -/
theorem gsNormalize_eq_smul (sqrt : K → K) (q : Fin d → K) :
    gsNormalize sqrt q = (sqrt (product q q))⁻¹ • q := by
  funext i
  simp [gsNormalize, div_eq_mul_inv, mul_comm]

/-- Unfolding the residual fold over an empty basis. -/
theorem gsResid_nil (v : Fin d → K) : gsResid ([] : List (Fin d → K)) v = v := rfl

/-- Unfolding one step of the residual fold. -/
theorem gsResid_cons (e : Fin d → K) (acc : List (Fin d → K)) (v : Fin d → K) :
    gsResid (e :: acc) v = gsResid acc (v - product e v • e) := rfl

/-- The residual of the zero vector is zero. -/
theorem gsResid_zero : ∀ acc : List (Fin d → K), gsResid acc (0 : Fin d → K) = 0
  | [] => rfl
  | e :: rest => by
    rw [gsResid_cons, product_zero_right, zero_smul, sub_zero]
    exact gsResid_zero rest

/-- A vector orthogonal to the basis and to the start stays orthogonal to it
through the whole residual fold. -/
theorem gsResid_orth_aux :
    ∀ (acc : List (Fin d → K)) (w v : Fin d → K),
      (∀ e ∈ acc, product w e = 0) → product w v = 0 →
      product w (gsResid acc v) = 0
  | [], _, _, _, hv => hv
  | e :: rest, w, v, hw, hv => by
    rw [gsResid_cons]
    apply gsResid_orth_aux rest w _ (fun x hx => hw x (by simp [hx]))
    rw [product_sub_right, product_smul_right, hw e (by simp), mul_zero, sub_zero]
    exact hv

/-- Over an orthonormal basis, the modified Gram-Schmidt residual is
orthogonal to every basis vector. -/
theorem gsResid_orth :
    ∀ (acc : List (Fin d → K)) (v : Fin d → K), ONSet acc →
      ∀ e ∈ acc, product e (gsResid acc v) = 0
  | [], _, _, e, he => absurd he (List.not_mem_nil e)
  | e0 :: rest, v, hON, e, he => by
    obtain ⟨hunit, hpw⟩ := hON
    rw [List.pairwise_cons] at hpw
    rw [gsResid_cons]
    rcases List.mem_cons.mp he with rfl | hrest
    · apply gsResid_orth_aux rest e _ (fun x hx => (hpw.1 x hx).1)
      rw [product_sub_right, product_smul_right, hunit e (by simp)]
      ring
    · exact gsResid_orth rest _
        ⟨fun x hx => hunit x (by simp [hx]), hpw.2⟩ e hrest

/-- The residual differs from the input vector by an element of the span of
the processed basis. -/
theorem gsResid_sub_span :
    ∀ (acc : List (Fin d → K)) (v : Fin d → K),
      ∃ w ∈ Submodule.span K {x : Fin d → K | x ∈ acc}, gsResid acc v = v - w
  | [], v => ⟨0, Submodule.zero_mem _, by rw [gsResid_nil, sub_zero]⟩
  | e :: rest, v => by
    obtain ⟨w', hw', heq⟩ := gsResid_sub_span rest (v - product e v • e)
    refine ⟨product e v • e + w', ?_, ?_⟩
    · apply Submodule.add_mem
      · exact Submodule.smul_mem _ _ (Submodule.subset_span (by simp))
      · exact Submodule.span_mono (fun x hx => List.mem_cons_of_mem e hx) hw'
    · rw [gsResid_cons, heq, sub_sub]

/-- The total run decomposes over list concatenation. -/
theorem gsTAux_append (sqrt : K → K) :
    ∀ (vs1 vs2 : List (Fin d → K)) (acc : List (Fin d → K)),
      gsTAux sqrt acc (vs1 ++ vs2) = gsTAux sqrt (gsTAux sqrt acc vs1) vs2
  | [], _, _ => rfl
  | v :: vs1, vs2, acc => by
    rw [List.cons_append]
    show gsTAux sqrt (acc ++ [gsNormalize sqrt (gsResid acc v)]) (vs1 ++ vs2) = _
    rw [gsTAux_append sqrt vs1 vs2]
    rfl

/-- The residual the computation forms for row j, through get. -/
theorem residAt_eq (sqrt : K → K) (vecs : List (Fin d → K)) (j : ℕ)
    (h : j < vecs.length) :
    residAt sqrt vecs j = gsResid (gsT sqrt (vecs.take j)) (vecs.get ⟨j, h⟩) := by
  rw [residAt, List.getD_eq_getElem _ _ h]
  rfl

/-- One more processed row extends the total run by one normalised residual. -/
theorem gsT_take_succ (sqrt : K → K) (vecs : List (Fin d → K)) (j : ℕ)
    (h : j < vecs.length) :
    gsT sqrt (vecs.take (j + 1)) =
      gsT sqrt (vecs.take j) ++ [gsNormalize sqrt (residAt sqrt vecs j)] := by
  have ht : vecs.take (j + 1) = vecs.take j ++ [vecs.get ⟨j, h⟩] := by
    rw [List.take_succ]
    simp [List.getElem?_eq_getElem h]
  rw [gsT, ht, gsTAux_append, residAt_eq sqrt vecs j h]
  rfl

end GramSchmidtLemmas

/-- Characterisation of a partial gram_schmidt run from row n onwards: it
fails exactly when some later residual has zero norm with all residuals
between n and it nonzero, and succeeds with the total run's rows when all
remaining residual norms are nonzero. -/
theorem gsAux_run {K : Type} [Field K] [StarRing K] [DecidableEq K] {d : ℕ}
    (sqrt : K → K) (vecs : List (Fin d → K)) :
    ∀ (m n : ℕ), n + m = vecs.length →
      ((gsAux sqrt (gsT sqrt (vecs.take n)) (vecs.drop n) = none ↔
        ∃ j, n ≤ j ∧ ∃ h : j < vecs.length,
          sqrt (product (residAt sqrt vecs j) (residAt sqrt vecs j)) = 0
        ∧ ∀ i, n ≤ i → i < j →
            sqrt (product (residAt sqrt vecs i) (residAt sqrt vecs i)) ≠ 0)
     ∧ ((∀ j, n ≤ j → j < vecs.length →
          sqrt (product (residAt sqrt vecs j) (residAt sqrt vecs j)) ≠ 0) →
        gsAux sqrt (gsT sqrt (vecs.take n)) (vecs.drop n) = some (gsT sqrt vecs)))
  | 0, n, hmn => by
    have hn : n = vecs.length := by omega
    subst hn
    rw [List.drop_length, List.take_length]
    refine ⟨⟨?_, ?_⟩, fun _ => rfl⟩
    · intro h
      exact absurd h (by simp [gsAux])
    · rintro ⟨j, hnj, hj, -⟩
      omega
  | m + 1, n, hmn => by
    have hn : n < vecs.length := by omega
    have hdrop : vecs.drop n = vecs.get ⟨n, hn⟩ :: vecs.drop (n + 1) :=
      List.drop_eq_getElem_cons hn
    rw [hdrop]
    have hqr : gsResid (gsT sqrt (vecs.take n)) (vecs.get ⟨n, hn⟩) =
        residAt sqrt vecs n := (residAt_eq sqrt vecs n hn).symm
    have hunf : gsAux sqrt (gsT sqrt (vecs.take n)) (vecs.get ⟨n, hn⟩ :: vecs.drop (n + 1)) =
        if sqrt (product (residAt sqrt vecs n) (residAt sqrt vecs n)) = 0 then none
        else gsAux sqrt
          (gsT sqrt (vecs.take n) ++ [gsNormalize sqrt (residAt sqrt vecs n)])
          (vecs.drop (n + 1)) := by
      show (let q := gsResid (gsT sqrt (vecs.take n)) (vecs.get ⟨n, hn⟩)
            if sqrt (product q q) = 0 then none
            else gsAux sqrt
              (gsT sqrt (vecs.take n) ++ [gsNormalize sqrt q]) (vecs.drop (n + 1))) = _
      rw [show (let q := gsResid (gsT sqrt (vecs.take n)) (vecs.get ⟨n, hn⟩)
            if sqrt (product q q) = 0 then none
            else gsAux sqrt
              (gsT sqrt (vecs.take n) ++ [gsNormalize sqrt q]) (vecs.drop (n + 1))) =
          (if sqrt (product (gsResid (gsT sqrt (vecs.take n)) (vecs.get ⟨n, hn⟩))
                (gsResid (gsT sqrt (vecs.take n)) (vecs.get ⟨n, hn⟩))) = 0 then none
            else gsAux sqrt
              (gsT sqrt (vecs.take n) ++
                [gsNormalize sqrt (gsResid (gsT sqrt (vecs.take n)) (vecs.get ⟨n, hn⟩))])
              (vecs.drop (n + 1))) from rfl, hqr]
    rw [hunf]
    by_cases h0 : sqrt (product (residAt sqrt vecs n) (residAt sqrt vecs n)) = 0
    · rw [if_pos h0]
      refine ⟨⟨fun _ => ⟨n, le_rfl, hn, h0, fun i h1 h2 => by omega⟩, fun _ => rfl⟩, ?_⟩
      intro hall
      exact absurd h0 (hall n le_rfl hn)
    · rw [if_neg h0, ← gsT_take_succ sqrt vecs n hn]
      obtain ⟨ih1, ih2⟩ := gsAux_run sqrt vecs m (n + 1) (by omega)
      constructor
      · rw [ih1]
        constructor
        · rintro ⟨j, hj1, hj2, hj3, hj4⟩
          refine ⟨j, by omega, hj2, hj3, fun i hi1 hi2 => ?_⟩
          rcases eq_or_lt_of_le hi1 with rfl | hlt
          · exact h0
          · exact hj4 i (by omega) hi2
        · rintro ⟨j, hj1, hj2, hj3, hj4⟩
          have hjn : n ≠ j := by
            rintro rfl
            exact h0 hj3
          exact ⟨j, by omega, hj2, hj3, fun i hi1 hi2 => hj4 i (by omega) hi2⟩
      · intro hall
        exact ih2 (fun j h1 h2 => hall j (by omega) h2)

/-- Sums of rational squares vanish only on the zero vector: the inner
product over the rationals is positive definite. -/
theorem rat_product_self_eq_zero {d : ℕ} (v : Fin d → ℚ) (h : product v v = 0) :
    v = 0 := by
  simp only [product, star_trivial] at h
  funext i
  have hz := (Finset.sum_eq_zero_iff_of_nonneg
    (fun i (_ : i ∈ Finset.univ) => mul_self_nonneg (v i))).mp h i (Finset.mem_univ i)
  have hvi : v i = 0 := by nlinarith
  simpa using hvi

/-- Claim C3: gram_schmidt raises exactly when some vector of the
computation — an input vector (including the first) or an intermediate
residual — has exactly zero norm; the check is exact equality with zero. -/
theorem gram_schmidt_error_iff_degenerate {K : Type} [Field K] [StarRing K]
    [DecidableEq K] {d : ℕ} (sqrt : K → K) (vecs : List (Fin d → K))
    (hpd : ∀ v : Fin d → K, product v v = 0 → v = 0)
    (hz0 : sqrt 0 = 0)
    (hzinv : ∀ x : K, sqrt x = 0 → x = 0) :
    gram_schmidt sqrt vecs = none ↔
      ∃ j, ∃ h : j < vecs.length,
        norm sqrt (vecs.get ⟨j, h⟩) = 0 ∨ norm sqrt (residAt sqrt vecs j) = 0 := by
  have hrun := gsAux_run sqrt vecs vecs.length 0 (by omega)
  constructor
  · intro hnone
    obtain ⟨j, -, hj, hz, -⟩ := hrun.1.mp hnone
    exact ⟨j, hj, Or.inr hz⟩
  · rintro ⟨j, hj, hcase⟩
    have hres : sqrt (product (residAt sqrt vecs j) (residAt sqrt vecs j)) = 0 := by
      rcases hcase with hv | hr
      · have h1 : product (vecs.get ⟨j, hj⟩) (vecs.get ⟨j, hj⟩) = 0 := hzinv _ hv
        have h2 : vecs.get ⟨j, hj⟩ = 0 := hpd _ h1
        rw [residAt_eq sqrt vecs j hj, h2, gsResid_zero, product_zero_right, hz0]
      · exact hr
    apply hrun.1.mpr
    classical
    have hex : ∃ i, i < vecs.length ∧
        sqrt (product (residAt sqrt vecs i) (residAt sqrt vecs i)) = 0 :=
      ⟨j, hj, hres⟩
    refine ⟨Nat.find hex, by omega, (Nat.find_spec hex).1, (Nat.find_spec hex).2, ?_⟩
    intro i hi0 hilt hzi
    have hmin := Nat.find_min hex hilt
    have hilen : i < vecs.length := by
      have := (Nat.find_spec hex).1
      omega
    exact hmin ⟨hilen, hzi⟩

/-- Invariant of the modified Gram-Schmidt run on linearly independent rows:
after k rows the produced system is orthonormal, lies in the span of the
first k input rows, and every residual so far had nonzero norm. -/
theorem gsT_orthonormal_invariant {K : Type} [Field K] [StarRing K] {d : ℕ}
    (sqrt : K → K) (vecs : List (Fin d → K))
    (hpd : ∀ v : Fin d → K, product v v = 0 → v = 0)
    (hzinv : ∀ x : K, sqrt x = 0 → x = 0)
    (hs : ∀ j, j < vecs.length →
      star (sqrt (product (residAt sqrt vecs j) (residAt sqrt vecs j))) *
        sqrt (product (residAt sqrt vecs j) (residAt sqrt vecs j)) =
      product (residAt sqrt vecs j) (residAt sqrt vecs j))
    (hind : LinearIndependent K (fun i : Fin vecs.length => vecs.get i)) :
    ∀ k, k ≤ vecs.length →
      ONSet (gsT sqrt (vecs.take k))
    ∧ (gsT sqrt (vecs.take k)).length = k
    ∧ (∀ e ∈ gsT sqrt (vecs.take k), e ∈ Submodule.span K
        ((fun i : Fin vecs.length => vecs.get i) '' {i : Fin vecs.length | (i : ℕ) < k}))
    ∧ ∀ i, i < k → sqrt (product (residAt sqrt vecs i) (residAt sqrt vecs i)) ≠ 0 := by
  intro k
  induction k with
  | zero =>
    intro _
    refine ⟨⟨fun e he => absurd he (List.not_mem_nil e), List.Pairwise.nil⟩,
      rfl, fun e he => absurd he (List.not_mem_nil e), fun i hi => by omega⟩
  | succ k ih =>
    intro hk1
    have hk : k < vecs.length := by omega
    obtain ⟨hON, hlen, hspan, hnz⟩ := ih (by omega)
    have hqdef : residAt sqrt vecs k =
        gsResid (gsT sqrt (vecs.take k)) (vecs.get ⟨k, hk⟩) := residAt_eq sqrt vecs k hk
    obtain ⟨w, hw, hqe⟩ := gsResid_sub_span (gsT sqrt (vecs.take k)) (vecs.get ⟨k, hk⟩)
    have hq_eq : residAt sqrt vecs k = vecs.get ⟨k, hk⟩ - w := by rw [hqdef]; exact hqe
    have hw2 : w ∈ Submodule.span K
        ((fun i : Fin vecs.length => vecs.get i) '' {i : Fin vecs.length | (i : ℕ) < k}) :=
      Submodule.span_le.mpr (fun e he => hspan e he) hw
    have hqne : residAt sqrt vecs k ≠ 0 := by
      intro h0
      have hv_eq : vecs.get ⟨k, hk⟩ = w := sub_eq_zero.mp (hq_eq.symm.trans h0)
      have hvnot := linearIndependent_iff_not_mem_span.mp hind ⟨k, hk⟩
      apply hvnot
      have hsub : ((fun i : Fin vecs.length => vecs.get i) ''
          {i : Fin vecs.length | (i : ℕ) < k}) ⊆
          (fun i : Fin vecs.length => vecs.get i) '' (Set.univ \ {⟨k, hk⟩}) := by
        apply Set.image_subset
        intro i hi
        refine ⟨Set.mem_univ i, ?_⟩
        intro hmem
        rw [Set.mem_singleton_iff] at hmem
        subst hmem
        exact absurd hi (by simp)
      show vecs.get ⟨k, hk⟩ ∈ _
      rw [hv_eq]
      exact Submodule.span_mono hsub hw2
    have hnsq : product (residAt sqrt vecs k) (residAt sqrt vecs k) ≠ 0 :=
      fun h => hqne (hpd _ h)
    have hr : sqrt (product (residAt sqrt vecs k) (residAt sqrt vecs k)) ≠ 0 :=
      fun h => hnsq (hzinv _ h)
    have hsr : star (sqrt (product (residAt sqrt vecs k) (residAt sqrt vecs k))) ≠ 0 :=
      star_ne_zero.mpr hr
    have horthq : ∀ e ∈ gsT sqrt (vecs.take k), product e (residAt sqrt vecs k) = 0 := by
      intro e he
      rw [hqdef]
      exact gsResid_orth _ _ hON e he
    have horth2 : ∀ e ∈ gsT sqrt (vecs.take k),
        product e (gsNormalize sqrt (residAt sqrt vecs k)) = 0 := by
      intro e he
      rw [gsNormalize_eq_smul, product_smul_right, horthq e he, mul_zero]
    have horth3 : ∀ e ∈ gsT sqrt (vecs.take k),
        product (gsNormalize sqrt (residAt sqrt vecs k)) e = 0 := by
      intro e he
      rw [product_conj, horth2 e he, star_zero]
    have hunit : product (gsNormalize sqrt (residAt sqrt vecs k))
        (gsNormalize sqrt (residAt sqrt vecs k)) = 1 := by
      rw [gsNormalize_eq_smul, product_smul_left, product_smul_right, star_inv₀]
      nth_rewrite 3 [(hs k hk).symm]
      set s1 := sqrt (product (residAt sqrt vecs k) (residAt sqrt vecs k)) with hs1def
      have hsplit : (star s1)⁻¹ * (s1⁻¹ * (star s1 * s1)) =
          ((star s1)⁻¹ * star s1) * (s1⁻¹ * s1) := by ring
      rw [hsplit, inv_mul_cancel₀ hsr, inv_mul_cancel₀ hr, one_mul]
    have hsucc := gsT_take_succ sqrt vecs k hk
    have hON' : ONSet (gsT sqrt (vecs.take (k + 1))) := by
      rw [hsucc]
      constructor
      · intro e he
        rcases List.mem_append.mp he with h | h
        · exact hON.1 e h
        · obtain rfl : e = gsNormalize sqrt (residAt sqrt vecs k) := by simpa using h
          exact hunit
      · rw [List.pairwise_append]
        refine ⟨hON.2, List.pairwise_singleton _ _, ?_⟩
        intro a ha b hb
        obtain rfl : b = gsNormalize sqrt (residAt sqrt vecs k) := by simpa using hb
        exact ⟨horth2 a ha, horth3 a ha⟩
    refine ⟨hON', ?_, ?_, ?_⟩
    · rw [hsucc]
      simp [hlen]
    · rw [hsucc]
      intro e he
      rcases List.mem_append.mp he with h | h
      · refine Submodule.span_mono (Set.image_subset _ ?_) (hspan e h)
        intro i hi
        simp only [Set.mem_setOf_eq] at hi ⊢
        omega
      · obtain rfl : e = gsNormalize sqrt (residAt sqrt vecs k) := by simpa using h
        rw [gsNormalize_eq_smul, hq_eq]
        apply Submodule.smul_mem
        apply Submodule.sub_mem
        · exact Submodule.subset_span ⟨⟨k, hk⟩, by simp, rfl⟩
        · refine Submodule.span_mono (Set.image_subset _ ?_) hw2
          intro i hi
          simp only [Set.mem_setOf_eq] at hi ⊢
          omega
    · intro i hi
      rcases Nat.lt_succ_iff_lt_or_eq.mp hi with h | rfl
      · exact hnz i h
      · exact hr

/-- Claim C4: on a list of linearly independent rows (with a square root
exact on the norms the run encounters), gram_schmidt raises no error and
returns as many rows as it was given, each of unit inner product with itself
and unit norm, pairwise exactly orthogonal. -/
theorem gram_schmidt_orthonormalises {K : Type} [Field K] [StarRing K]
    [DecidableEq K] {d : ℕ} (sqrt : K → K) (vecs : List (Fin d → K))
    (hpd : ∀ v : Fin d → K, product v v = 0 → v = 0)
    (hzinv : ∀ x : K, sqrt x = 0 → x = 0)
    (hs1 : sqrt 1 = 1)
    (hs : ∀ j, j < vecs.length →
      star (sqrt (product (residAt sqrt vecs j) (residAt sqrt vecs j))) *
        sqrt (product (residAt sqrt vecs j) (residAt sqrt vecs j)) =
      product (residAt sqrt vecs j) (residAt sqrt vecs j))
    (hind : LinearIndependent K (fun i : Fin vecs.length => vecs.get i)) :
    ∃ O, gram_schmidt sqrt vecs = some O ∧ O.length = vecs.length
    ∧ (∀ i (h : i < O.length),
        product (O.get ⟨i, h⟩) (O.get ⟨i, h⟩) = 1 ∧ norm sqrt (O.get ⟨i, h⟩) = 1)
    ∧ (∀ i j (hi : i < O.length) (hj : j < O.length), i ≠ j →
        product (O.get ⟨i, hi⟩) (O.get ⟨j, hj⟩) = 0) := by
  obtain ⟨hON, hlen, -, hnz⟩ :=
    gsT_orthonormal_invariant sqrt vecs hpd hzinv hs hind vecs.length le_rfl
  rw [List.take_length] at hON hlen
  have hsome : gram_schmidt sqrt vecs = some (gsT sqrt vecs) :=
    (gsAux_run sqrt vecs vecs.length 0 (by omega)).2 (fun j _ hj => hnz j hj)
  refine ⟨gsT sqrt vecs, hsome, hlen, ?_, ?_⟩
  · intro i h
    have h1 := hON.1 _ (List.get_mem (gsT sqrt vecs) i h)
    refine ⟨h1, ?_⟩
    show sqrt (product _ _) = 1
    rw [h1, hs1]
  · intro i j hi hj hne
    have hpw := List.pairwise_iff_get.mp hON.2
    rcases lt_or_gt_of_ne hne with h | h
    · exact (hpw ⟨i, hi⟩ ⟨j, hj⟩ h).1
    · exact (hpw ⟨j, hj⟩ ⟨i, hi⟩ h).2

/-- The witness square root vanishes only at zero. -/
theorem wsqrt_zero : ∀ x : ℚ, wsqrt x = 0 → x = 0 := by
  intro x h
  by_cases h1 : x = 0
  · exact h1
  · exfalso
    simp only [wsqrt, if_neg h1] at h
    split_ifs at h <;> norm_num at h

/-- Witness for C3: the singleton list holding the zero row; gram_schmidt
fails on it exactly as the degeneracy characterisation states. -/
theorem gram_schmidt_error_iff_degenerate_witness :
    gram_schmidt wsqrt wzvecs = none ↔
      ∃ j, ∃ h : j < wzvecs.length,
        norm wsqrt (wzvecs.get ⟨j, h⟩) = 0 ∨ norm wsqrt (residAt wsqrt wzvecs j) = 0 :=
  gram_schmidt_error_iff_degenerate wsqrt wzvecs
    (fun v h => rat_product_self_eq_zero v h) (by simp [wsqrt]) wsqrt_zero

/-- The first witness residual is the first row itself. -/
theorem wres0 : residAt wsqrt wvecs 0 = wvec0 := rfl

/-- The first witness row has squared norm 25. -/
theorem wprod0 : product wvec0 wvec0 = 25 := by
  norm_num [product, wvec0, Fin.sum_univ_two]

/-- The normalised first witness row. -/
theorem we0 : gsNormalize wsqrt wvec0 = ![3 / 5, 4 / 5] := by
  funext i
  show wvec0 i / wsqrt (product wvec0 wvec0) = _
  rw [wprod0]
  fin_cases i <;> norm_num [wvec0, wsqrt]

/-- The second witness residual after projecting out the normalised first
row. -/
theorem wres1 : residAt wsqrt wvecs 1 = ![16 / 25, -12 / 25] := by
  have h1 : residAt wsqrt wvecs 1 = gsResid [gsNormalize wsqrt wvec0] wvec1 := rfl
  rw [h1, we0, gsResid_cons, gsResid_nil]
  have hp : product ![(3 : ℚ) / 5, 4 / 5] wvec1 = 3 / 5 := by
    norm_num [product, wvec1, Fin.sum_univ_two]
  rw [hp]
  funext i
  fin_cases i <;>
    norm_num [wvec1, Pi.sub_apply, Pi.smul_apply, smul_eq_mul]

/-- The second witness residual has squared norm 16/25. -/
theorem wprod1 : product (residAt wsqrt wvecs 1) (residAt wsqrt wvecs 1) = 16 / 25 := by
  rw [wres1]
  norm_num [product, Fin.sum_univ_two]

/-- Witness for C4: the two independent rows [3,4] and [1,0] are
orthonormalised without error. -/
theorem gram_schmidt_orthonormalises_witness :
    ∃ O, gram_schmidt wsqrt wvecs = some O ∧ O.length = wvecs.length
    ∧ (∀ i (h : i < O.length),
        product (O.get ⟨i, h⟩) (O.get ⟨i, h⟩) = 1 ∧ norm wsqrt (O.get ⟨i, h⟩) = 1)
    ∧ (∀ i j (hi : i < O.length) (hj : j < O.length), i ≠ j →
        product (O.get ⟨i, hi⟩) (O.get ⟨j, hj⟩) = 0) := by
  apply gram_schmidt_orthonormalises wsqrt wvecs
    (fun v h => rat_product_self_eq_zero v h) wsqrt_zero (by norm_num [wsqrt])
  · intro j hj
    have hj2 : j = 0 ∨ j = 1 := by
      simp [wvecs] at hj
      omega
    rcases hj2 with rfl | rfl
    · rw [wres0, wprod0]
      norm_num [wsqrt]
    · rw [wprod1]
      norm_num [wsqrt]
  · have hfam : (fun i : Fin wvecs.length => wvecs.get i) = ![wvec0, wvec1] := by
      funext i
      fin_cases i <;> rfl
    rw [hfam]
    apply linearIndependent_fin2.mpr
    constructor
    · intro h
      have := congrFun h 0
      norm_num [wvec1] at this
    · intro a h
      have := congrFun h 1
      norm_num [wvec0, wvec1] at this
